import Mathlib

/-!
Verification of the open-space ROI decider
(`modules/planning/tasks/deciders/open_space_roi_decider.cc`).

The development shallowly embeds the decider's geometry pipeline: the
adaptive lane-boundary sampling loop, the parking-spot stitching of the
left/right road-edge polylines, the convex fusing of 2-point line
segments, the vertex loading with per-piece edge counts, and the
V-to-H-representation conversion (`GetHyperPlanes`).

Doubles are embedded as exact rationals (`ℚ`); the source's numeric
tolerances (`1.0e-5` in `GetHyperPlanes`, `1.0e-8` in `FuseLineSegments`)
are kept as exact rational constants, and a comparison
`DistanceTo(p) > eps` is embedded as the equivalent square comparison
`distSq > eps^2` to stay inside ℚ.  External collaborators (map/path
queries, `NormalizeAngle`, `Box2d` corner extraction) enter as function
parameters; everything taken from the decider's own lines is embedded
faithfully, including its clamping, iterator arithmetic and the order of
its checks.  An out-of-bounds `operator[]` access (undefined behaviour in
the source) is modelled by `Option`-valued indexing, so a run that would
touch memory out of bounds evaluates to `none`.
-/

namespace OpenSpaceRoi

/-- Planar point / vector (`apollo::common::math::Vec2d`): exact rationals in
place of doubles.  `Prod` addition and subtraction are componentwise,
matching `Vec2d::operator+=` / `-=`. -/
abbrev Vec2 := ℚ × ℚ

/-- The utility `CrossProd(start, end1, end2)` from `common::math`: the cross product
of `end1 - start` and `end2 - start`. -/
def crossProd (p1 p2 p3 : Vec2) : ℚ :=
  (p2.1 - p1.1) * (p3.2 - p1.2) - (p2.2 - p1.2) * (p3.1 - p1.1)

/-- Squared distance; `Vec2d::DistanceTo` is its square root, so
`DistanceTo a b > eps` is embedded as `distSq a b > eps^2`. -/
def distSq (a b : Vec2) : ℚ := (a.1 - b.1) ^ 2 + (a.2 - b.2) ^ 2

/-- Rotation `Vec2d::SelfRotate(θ)` with `c = cos θ`, `s = sin θ`:
`(x cos θ - y sin θ, x sin θ + y cos θ)`.  A rotation by `-θ` is
`selfRotate c (-s)`. -/
def selfRotate (c s : ℚ) (p : Vec2) : Vec2 :=
  (c * p.1 - s * p.2, s * p.1 + c * p.2)

/-! ## Hyperplane generator (`GetHyperPlanes`, lines 801-872) -/

/-- Tolerance `kEpsilon = 1.0e-5` of `GetHyperPlanes`. -/
def hpEps : ℚ := 1 / 100000

/-- One row `((a₁, a₂), b)` of the H-representation, from the inner loop of
`GetHyperPlanes` (lines 826-860).  The general branch solves
`[[v1.x, 1], [v2.x, 1]] · [a; b] = [v1.y; v2.y]` by the exact 2×2 inverse
(`tmp1.inverse() * tmp2`), giving `a = (v1.y - v2.y)/(v1.x - v2.x)` and
`b = (v1.x*v2.y - v2.x*v1.y)/(v1.x - v2.x)`. -/
def edgeHyperplane (v1 v2 : Vec2) : (ℚ × ℚ) × ℚ :=
  if |v1.1 - v2.1| < hpEps then
    if v2.2 < v1.2 then ((1, 0), v1.1) else ((-1, 0), -v1.1)
  else if |v1.2 - v2.2| < hpEps then
    if v1.1 < v2.1 then ((0, 1), v1.2) else ((0, -1), -v1.2)
  else
    let a := (v1.2 - v2.2) / (v1.1 - v2.1)
    let b := (v1.1 * v2.2 - v2.1 * v1.2) / (v1.1 - v2.1)
    if v1.1 < v2.1 then ((-a, 1), b) else ((a, -1), -b)

/-- Dot product `A_i · p` for one row. -/
def dotRow (r : ℚ × ℚ) (p : Vec2) : ℚ := r.1 * p.1 + r.2 * p.2

/-- The rows `GetHyperPlanes` emits for one piece: row `j` comes from the
consecutive vertex pair `(v_j, v_{j+1})`, for `j < n` where `n` is the
piece's recorded edge count. -/
def pieceRows (piece : List Vec2) (n : ℕ) : List ((ℚ × ℚ) × ℚ) :=
  (List.range n).map fun j =>
    edgeHyperplane (piece.getD j (0, 0)) (piece.getD (j + 1) (0, 0))

/-- A point strictly inside a closed convex piece: strictly on the
positive-cross side of every directed edge of the loop.  For the
decider's pieces (vertex loops oriented so the interior is to the left of
each directed edge) this is the interior. -/
def StrictlyInside (piece : List Vec2) (p : Vec2) : Prop :=
  ∀ j, j + 1 < piece.length →
    0 < crossProd (piece.getD j (0, 0)) (piece.getD (j + 1) (0, 0)) p

/-- An edge on which the `1.0e-5` axis-aligned classification of
`GetHyperPlanes` is exact: either exactly vertical, or slanted by at least
the tolerance in `x` and (exactly horizontal or slanted by at least the
tolerance in `y`). -/
def EdgeExact (v1 v2 : Vec2) : Prop :=
  v1.1 = v2.1 ∨ (hpEps ≤ |v1.1 - v2.1| ∧ (v1.2 = v2.2 ∨ hpEps ≤ |v1.2 - v2.2|))

/-- The concrete piece of the C1 counterexample: a closed triangle loop
whose first edge rises by 1 while moving right by `5e-6 < 1e-5`, so
`GetHyperPlanes` treats it as exactly vertical. -/
def cexPiece : List Vec2 := [(0, 0), (1 / 200000, 1), (-1, 1), (0, 0)]

/-- A point strictly inside `cexPiece`, squeezed between the `y` axis and
the nearly-vertical first edge. -/
def cexPoint : Vec2 := (1 / 250000, 9 / 10)

/-! ## Segment fuser (`FuseLineSegments`, lines 587-619) -/

/-- One line segment of `roi_parking_boundary`: a vector of points. -/
abbrev Seg := List Vec2

/-- Tolerance `kEpsilon = 1.0e-8` of `FuseLineSegments`. -/
def fuseEps : ℚ := 1 / 100000000

/-- Last point, `segment.back()`; calling it on an empty vector is undefined behaviour
in the source, embedded by an arbitrary default. -/
def segBack (s : Seg) : Vec2 := s.getLastD (0, 0)

/-- First point, `segment.front()`; same remark as `segBack`. -/
def segFront (s : Seg) : Vec2 := s.headD (0, 0)

/-- Second point, `next_segment->at(1)`. -/
def segSecond (s : Seg) : Vec2 := s.getD 1 (0, 0)

/-- Second-to-last point, `cur_segment->at(cur_segment->size() - 2)`. -/
def segPenult (s : Seg) : Vec2 := s.getD (s.length - 2) (0, 0)

/-- The fuse loop, with `acc` the (reversed) segments already advanced
past, `cur` the segment `cur_segment` points at and `rest` what follows.
The iterator condition `cur_segment != line_segments_vec->end() - 1`
terminates the walk when `cur` is the last segment.  The outer `Option` is
fuel exhaustion (never reached from `fuseLineSegments`, see
`fuseAux_ne_none`); the inner one is the function's boolean result:
`some none` embeds `return false` at a malformed (< 2 point) segment. -/
def fuseAux : ℕ → List Seg → Seg → List Seg → Option (Option (List Seg))
  | 0, _, _, _ => none
  | _ + 1, acc, cur, [] => some (some ((cur :: acc).reverse))
  | fuel + 1, acc, cur, next :: rest =>
    if distSq (segBack cur) (segFront next) > fuseEps ^ 2 then
      fuseAux fuel (cur :: acc) next rest
    else if cur.length < 2 ∨ next.length < 2 then
      some none
    else if crossProd (segPenult cur) (segBack cur) (segSecond next) < 0 then
      if next.length = 2 then
        fuseAux fuel acc (cur ++ [segSecond next]) rest
      else
        fuseAux fuel acc (cur ++ [segSecond next]) (next.drop 2 :: rest)
    else
      fuseAux fuel (cur :: acc) next rest

/-- Strict upper bound on the number of loop iterations from a state:
every step drops the total point count plus twice the tail length. -/
def fuseMeasure (cur : Seg) (rest : List Seg) : ℕ :=
  cur.length + (rest.map List.length).sum + 2 * rest.length

/-- Fuel that `fuseLineSegments` hands to `fuseAux`: strictly more than
`fuseMeasure` of the initial state. -/
def fuseFuel (segs : List Seg) : ℕ :=
  (segs.map List.length).sum + 2 * segs.length + 1

/-- The fuser `OpenSpaceRoiDecider::FuseLineSegments`.  `some out` is a `true`
return with the fused vector, `none` a `false` return.  (On an empty
vector the source's `begin() != end() - 1` guard is itself undefined;
callers never pass one, and the embedding returns it unchanged.) -/
def fuseLineSegments (segs : List Seg) : Option (List Seg) :=
  match segs with
  | [] => some []
  | c :: r => (fuseAux (fuseFuel segs) [] c r).getD none

/-- A joint the walk advances past without merging (hence a joint the
fuser leaves alone on any later run): the endpoints are farther apart
than `kEpsilon`, or both segments are well-formed and the turn at the
joint is not convex (cross product ≥ 0). -/
def NonFusable (a b : Seg) : Prop :=
  distSq (segBack a) (segFront b) > fuseEps ^ 2 ∨
    (2 ≤ a.length ∧ 2 ≤ b.length ∧
      0 ≤ crossProd (segPenult a) (segBack a) (segSecond b))

/-- Reachability between fuse-loop states `(acc, cur, rest)`, mirroring
the three ways `FuseLineSegments` moves on: advancing the iterator,
merging and exhausting the right segment, merging and shrinking it. -/
inductive FuseReach : List Seg × Seg × List Seg → List Seg × Seg × List Seg → Prop
  | refl (st : List Seg × Seg × List Seg) : FuseReach st st
  | advance {acc : List Seg} {cur next : Seg} {rest : List Seg}
      {st : List Seg × Seg × List Seg}
      (h : NonFusable cur next)
      (htail : FuseReach (cur :: acc, next, rest) st) :
      FuseReach (acc, cur, next :: rest) st
  | mergeDrop {acc : List Seg} {cur next : Seg} {rest : List Seg}
      {st : List Seg × Seg × List Seg}
      (hnear : ¬ distSq (segBack cur) (segFront next) > fuseEps ^ 2)
      (hlen : ¬ (cur.length < 2 ∨ next.length < 2))
      (hconv : crossProd (segPenult cur) (segBack cur) (segSecond next) < 0)
      (htwo : next.length = 2)
      (htail : FuseReach (acc, cur ++ [segSecond next], rest) st) :
      FuseReach (acc, cur, next :: rest) st
  | mergeKeep {acc : List Seg} {cur next : Seg} {rest : List Seg}
      {st : List Seg × Seg × List Seg}
      (hnear : ¬ distSq (segBack cur) (segFront next) > fuseEps ^ 2)
      (hlen : ¬ (cur.length < 2 ∨ next.length < 2))
      (hconv : crossProd (segPenult cur) (segBack cur) (segSecond next) < 0)
      (htwo : next.length ≠ 2)
      (htail : FuseReach (acc, cur ++ [segSecond next], next.drop 2 :: rest) st) :
      FuseReach (acc, cur, next :: rest) st

/-! ## Parking-spot stitcher: edge rescaling (lines 215-228, 302-315) -/

/-- One station of the rescale loop (lines 220-227 and 307-314): the
stored local-frame edge point is rotated back by `origin_heading`
(`c`,`s` its cosine and sine), translated by the origin, re-expressed
relative to the station's centerline point `ctr`, divided by the
station's road width `w`, multiplied by the scale factor (`-average_l`
on the right branch, `average_l` on the left), and carried back to the
local frame. -/
def rescalePoint (c s : ℚ) (o ctr : Vec2) (w scale : ℚ) (p : Vec2) : Vec2 :=
  let q1 := selfRotate c s p + o - ctr
  let q2 : Vec2 := (q1.1 / w, q1.2 / w)
  let q3 : Vec2 := (q2.1 * scale, q2.2 * scale)
  selfRotate c (-s) (q3 + ctr - o)

/-- The rescale loop over a whole edge polyline, walking the edge points,
the centerline points and the per-station road widths in parallel. -/
def rescaleEdge (c s : ℚ) (o : Vec2) (scale : ℚ) :
    List Vec2 → List Vec2 → List ℚ → List Vec2
  | p :: ps, ctr :: ctrs, w :: ws =>
    rescalePoint c s o ctr w scale p :: rescaleEdge c s o scale ps ctrs ws
  | _, _, _ => []

/-- The side decision of `GetParkingBoundary` (lines 215 and 302): when
`average_l < 0` the spot is right of the lane and the right edge is
rescaled by `-average_l`; otherwise (including `average_l = 0`) the left
edge is rescaled by `average_l`.  The opposite edge is returned as it
was. -/
def rescaledBoundaries (c s : ℚ) (o : Vec2) (avgL : ℚ)
    (rightB leftB ctrs : List Vec2) (rws lws : List ℚ) :
    List Vec2 × List Vec2 :=
  if avgL < 0 then
    (rescaleEdge c s o (-avgL) rightB ctrs rws, leftB)
  else
    (rightB, rescaleEdge c s o avgL leftB ctrs lws)

/-- A local-frame point's world-frame position (`SelfRotate(origin_heading)`
then `+= origin_point`, the inverse of the transform applied at
lines 196-209). -/
def toWorld (c s : ℚ) (o : Vec2) (p : Vec2) : Vec2 := selfRotate c s p + o

/-! ## Parking-spot stitcher: bracket search and assembly
(lines 230-300, right of lane; lines 316-388, left of lane) -/

/-- Index returned by `std::lower_bound` on the monotonically increasing
station array `center_lane_s`: the number of stations strictly below
`x`. -/
def lowerBoundIdx (l : List ℚ) (x : ℚ) : ℕ :=
  l.countP fun v => decide (v < x)

/-- Index returned by `std::upper_bound`: the number of stations not
exceeding `x`. -/
def upperBoundIdx (l : List ℚ) (x : ℚ) : ℕ :=
  l.countP fun v => decide (v ≤ x)

/-- The clamp the source applies to the near (lower-bound) bracket index
only (lines 234-237; the `<= 0` variant on a `size_t` at lines 320-323):
0 stays 0, anything else is decremented. -/
def clampLower (i : ℕ) : ℕ := if i = 0 then i else i - 1

/-- A disassembly loop emitting the 2-point segments `[v[i], v[j]]` for a
list of index pairs.  `operator[]` out of bounds is undefined behaviour
in the source and gives `none` here. -/
def collectSegs (v : List Vec2) : List (ℕ × ℕ) → Option (List Seg)
  | [] => some []
  | (i, j) :: rest => do
    let a ← v[i]?
    let b ← v[j]?
    let tail ← collectSegs v rest
    pure ([a, b] :: tail)

/-- Index pairs of an ascending loop `for (i = lo; i < hi; ++i)` over
`(i, i+1)`. -/
def ascPairs (lo hi : ℕ) : List (ℕ × ℕ) :=
  (List.range' lo (hi - lo)).map fun i => (i, i + 1)

/-- Index pairs of a descending loop `for (i = hi; i > lo; --i)` over
`(i, i-1)`. -/
def descPairs (lo hi : ℕ) : List (ℕ × ℕ) :=
  ((List.range' (lo + 1) (hi - lo)).map fun i => (i, i - 1)).reverse

/-- Segment disassembly of the right-of-lane branch (lines 265-300),
with `near` and `far` the two bracket indices into the rescaled right
edge.  The last descending loop runs from `left.size() - 1`; on an empty
vector that `size_t` difference wraps around and the source reads out of
bounds, embedded as `none`. -/
def stitchRightSegs (rightB leftB : List Vec2) (near far : ℕ)
    (leftTop leftDown rightDown rightTop : Vec2) : Option (List Seg) := do
  let pre ← collectSegs rightB (ascPairs 0 near)
  let nearPt ← rightB[near]?
  let farPt ← rightB[far]?
  let post ← collectSegs rightB (ascPairs far (rightB.length - 1))
  if leftB.length = 0 then none
  else do
    let ls ← collectSegs leftB (descPairs 0 (leftB.length - 1))
    pure (pre ++ [[nearPt, leftTop]] ++
      [[leftTop, leftDown], [leftDown, rightDown], [rightDown, rightTop]] ++
      [[rightTop, farPt]] ++ post ++ ls)

/-- Segment disassembly of the left-of-lane branch (lines 353-388). -/
def stitchLeftSegs (rightB leftB : List Vec2) (near far : ℕ)
    (leftTop leftDown rightDown rightTop : Vec2) : Option (List Seg) := do
  if rightB.length = 0 then none
  else do
    let pre ← collectSegs rightB (ascPairs 0 (rightB.length - 1))
    if leftB.length = 0 then none
    else do
      let ls ← collectSegs leftB (descPairs near (leftB.length - 1))
      let nearPt ← leftB[near]?
      let farPt ← leftB[far]?
      let post ← collectSegs leftB (descPairs 0 far)
      pure (pre ++ ls ++ [[nearPt, leftTop]] ++
        [[leftTop, leftDown], [leftDown, rightDown], [rightDown, rightTop]] ++
        [[rightTop, farPt]] ++ post)

/-- The right-of-lane stitch (lines 230-300): bracket searches with the
near index clamped and the far (upper-bound) index used as returned,
boundary polyline assembly closing on `right_lane_boundary.front()`, and
the segment list. -/
def stitchRight (rightB leftB : List Vec2) (centerS : List ℚ)
    (leftTop leftDown rightDown rightTop : Vec2) (leftTopS rightTopS : ℚ) :
    Option (List Vec2 × List Seg) := do
  let near := clampLower (lowerBoundIdx centerS leftTopS)
  let far := upperBoundIdx centerS rightTopS
  let front ← rightB[0]?
  let boundary := rightB.take near ++
    [leftTop, leftDown, rightDown, rightTop] ++ rightB.drop far ++
    leftB.reverse ++ [front]
  let segs ← stitchRightSegs rightB leftB near far
    leftTop leftDown rightDown rightTop
  pure (boundary, segs)

/-- The left-of-lane stitch (lines 316-388): the lower-bound search (on
`right_top_s`) is clamped, the upper-bound search (on `left_top_s`) is
not. -/
def stitchLeft (rightB leftB : List Vec2) (centerS : List ℚ)
    (leftTop leftDown rightDown rightTop : Vec2) (leftTopS rightTopS : ℚ) :
    Option (List Vec2 × List Seg) := do
  let far := clampLower (lowerBoundIdx centerS rightTopS)
  let near := upperBoundIdx centerS leftTopS
  let front ← rightB[0]?
  let boundary := rightB ++ (leftB.drop near).reverse ++
    [leftTop, leftDown, rightDown, rightTop] ++ (leftB.take far).reverse ++
    [front]
  let segs ← stitchLeftSegs rightB leftB near far
    leftTop leftDown rightDown rightTop
  pure (boundary, segs)

/-! ## Boundary builder (`GetParkingBoundary` sampling loop, lines 132-182)

`h` is the path's heading at an arc length (`GetSmoothPoint(s).heading()`)
and `normA` is `common::math::NormalizeAngle`, both external collaborators
passed as functions.  `minAngle` is `roi_linesegment_min_angle`, `segLen`
is `roi_linesegment_length`. -/

/-- The advance both loop branches share (lines 145-149 and 176-181): the
next station is `index * roi_linesegment_length`, clamped to `end_s`. -/
def nextS (segLen endS idx : ℚ) : ℚ :=
  if idx * segLen ≥ endS then endS else idx * segLen

/-- The sampling loop, returning the recorded stations in order.
`lastH` is `last_check_point_heading`; both the skip branch and the
record branch overwrite it with the current station's heading.  Fuel
exhaustion (the source loops forever when `roi_linesegment_length ≤ 0`
and `end_s > 0`) is `none`. -/
def buildAux (normA h : ℚ → ℚ) (minAngle segLen startS endS : ℚ) :
    ℕ → ℚ → ℚ → ℚ → Option (List ℚ)
  | 0, _, _, _ => none
  | fuel + 1, lastH, idx, s =>
    if s ≤ endS then
      if |normA (h s - lastH)| < minAngle ∧ s ≠ startS ∧ s ≠ endS then
        buildAux normA h minAngle segLen startS endS fuel (h s) (idx + 1)
          (nextS segLen endS (idx + 1))
      else if s = endS then some [s]
      else
        (buildAux normA h minAngle segLen startS endS fuel (h s) (idx + 1)
          (nextS segLen endS (idx + 1))).map (s :: ·)
    else some []

/-- The stations the loop visits (both branches advance identically, so
the visited sequence does not depend on the recording decisions). -/
def visitedAux (segLen endS : ℚ) : ℕ → ℚ → ℚ → Option (List ℚ)
  | 0, _, _ => none
  | fuel + 1, idx, s =>
    if s ≤ endS then
      if s = endS then some [s]
      else
        (visitedAux segLen endS fuel (idx + 1)
          (nextS segLen endS (idx + 1))).map (s :: ·)
    else some []

/-- The recording rule along a visited-station list: a station is kept
iff it is `start_s`, is `end_s`, or its heading differs from the
previous visited station's heading by at least `min_turn_angle` after
normalization. -/
def selRec (normA h : ℚ → ℚ) (minAngle startS endS : ℚ) :
    ℚ → List ℚ → List ℚ
  | _, [] => []
  | lastH, v :: rest =>
    if |normA (h v - lastH)| < minAngle ∧ v ≠ startS ∧ v ≠ endS then
      selRec normA h minAngle startS endS (h v) rest
    else v :: selRec normA h minAngle startS endS (h v) rest

/-- The loop as called at lines 132-136: `last_check_point_heading`
starts as the heading at `start_s`, the index at 0, the first station at
`start_s`. -/
def buildStations (normA h : ℚ → ℚ) (minAngle segLen startS endS : ℚ)
    (fuel : ℕ) : Option (List ℚ) :=
  buildAux normA h minAngle segLen startS endS fuel (h startS) 0 startS

/-- Heading profile of the C4 counterexample: three gentle turns of 1
radian each over stations 5 apart (values small enough that
`NormalizeAngle` is the identity on every difference taken). -/
def cexHeading : ℚ → ℚ :=
  fun s => if s ≤ 4 then 0 else if s ≤ 9 then 1 else 2

/-! ## Vertex loading (`LoadObstacleInVertices`, lines 637-731) and
hyperplane stacking (`GetHyperPlanes`, lines 801-872) -/

/-- A perception bounding box after shift and inflation
(lines 679-684), abstracted by the four corners `GetAllCorners` returns
in counter-clockwise order. -/
structure ObstacleBox where
  c1 : Vec2
  c2 : Vec2
  c3 : Vec2
  c4 : Vec2

/-- Lines 692-703: the corners are popped from the back (reversing them
to clockwise order), each rotated by `-origin_heading`, and the first
vertex is repeated at the end to close the loop. -/
def toCWClosed (c s : ℚ) (ccw : List Vec2) : List Vec2 :=
  let cw := ccw.reverse.map (selfRotate c (-s))
  cw ++ [cw.headD (0, 0)]

/-- The closed clockwise 5-vertex loop of one kept obstacle. -/
def obstacleVertices (c s : ℚ) (b : ObstacleBox) : List Vec2 :=
  toCWClosed c s [b.c1, b.c2, b.c3, b.c4]

/-- Vertex loading, `LoadObstacleInVertices`: boundary pieces are loaded as-is with edge
count `size - 1` (`CHECK_GT(size, 1)` is a fatal assert, `none` here);
when perception obstacles are enabled, each obstacle surviving the
filter contributes its closed clockwise loop with edge count 4;
`obstacles_num` is the total piece count.  The filter
(`FilterOutObstacle`) is an external predicate here: `keep b` is
`!FilterOutObstacle(frame, b)`. -/
def loadObstacleInVertices (c s : ℚ) (boundary : List (List Vec2))
    (obstacles : List ObstacleBox) (enablePerception : Bool)
    (keep : ObstacleBox → Bool) :
    Option (List (List Vec2) × List ℕ × ℕ) :=
  if boundary.any fun piece => piece.length ≤ 1 then none
  else
    let boundaryEdges := boundary.map fun piece => piece.length - 1
    if enablePerception then
      let kept := obstacles.filter keep
      some (boundary ++ kept.map (obstacleVertices c s),
        boundaryEdges ++ kept.map fun _ => 4,
        boundary.length + kept.length)
    else
      some (boundary, boundaryEdges, boundary.length)

/-- The generator `GetHyperPlanes` at the level of the stacked matrices: fails when
`obstacles_num` disagrees with the vertex list's size (lines 805-808);
otherwise piece `i` contributes `obstacles_edges_num(i)` rows, written at
the running row offset, so the stack is the concatenation of the
per-piece row blocks. -/
def getHyperPlanes (obstaclesNum : ℕ) (edgesNum : List ℕ)
    (verticesVec : List (List Vec2)) : Option (List (ℚ × ℚ) × List ℚ) :=
  if obstaclesNum ≠ verticesVec.length then none
  else
    let rows := (verticesVec.zip edgesNum).flatMap fun pc => pieceRows pc.1 pc.2
    some (rows.map Prod.fst, rows.map Prod.snd)

/-! ## ROI box and vehicle check (lines 396-417) and `Process`
(lines 72-76) -/

/-- Lines 396-403: the axis-aligned ROI box `[xmin, xmax, ymin, ymax]`
over the boundary polyline; `minmax_element` on an empty vector
dereferences `end()`, hence `none`. -/
def roiXYBoundary (pts : List Vec2) : Option (ℚ × ℚ × ℚ × ℚ) := do
  let xmin ← (pts.map Prod.fst).min?
  let xmax ← (pts.map Prod.fst).max?
  let ymin ← (pts.map Prod.snd).min?
  let ymax ← (pts.map Prod.snd).max?
  pure (xmin, xmax, ymin, ymax)

/-- Lines 411-414: the out-of-box test, true when the local-frame vehicle
position leaves the box in any coordinate. -/
def vehicleOutside (bx : ℚ × ℚ × ℚ × ℚ) (v : Vec2) : Bool :=
  decide (v.1 < bx.1) || decide (v.1 > bx.2.1) ||
    decide (v.2 < bx.2.2.1) || decide (v.2 > bx.2.2.2)

/-- Lines 408-417: the vehicle's world position is translated by the
origin and rotated by `-origin_heading`; `GetParkingBoundary` returns
`false` when the result is outside the ROI box. -/
def vehicleCheck (pts : List Vec2) (veh o : Vec2) (c s : ℚ) : Option Bool := do
  let bx ← roiXYBoundary pts
  pure (! vehicleOutside bx (selfRotate c (-s) (veh - o)))

/-- Error message `Process` logs and returns when `GetParkingBoundary`
fails (lines 72-76). -/
def parkingBoundaryFailMsg : String :=
  "Fail to get parking boundary from map"

/-- Lines 72-76 of `Process`: a `false` from `GetParkingBoundary` becomes
a planning-error status carrying the failure message. -/
def processStatus (ok : Bool) : Except String Unit :=
  if ok then Except.ok ()
  else Except.error parkingBoundaryFailMsg

end OpenSpaceRoi

namespace OpenSpaceRoi

/-- Row `j` of `pieceRows` is the hyperplane of edge `(v_j, v_{j+1})`. -/
theorem pieceRows_getD (piece : List Vec2) (n j : ℕ) (hj : j < n) :
    (pieceRows piece n).getD j default =
      edgeHyperplane (piece.getD j (0, 0)) (piece.getD (j + 1) (0, 0)) := by
  have hjlen : j < (pieceRows piece n).length := by
    simpa [pieceRows] using hj
  rw [List.getD_eq_getElem _ _ hjlen]
  simp [pieceRows]

/-- Core of C1, one edge at a time: when the `1.0e-5` classification is
exact for the edge, every point strictly on the positive-cross side of the
directed edge `(v1, v2)` strictly satisfies the emitted inequality. -/
theorem edgeHyperplane_pos (v1 v2 p : Vec2) (hdeg : EdgeExact v1 v2)
    (hin : 0 < crossProd v1 v2 p) :
    dotRow (edgeHyperplane v1 v2).1 p > (edgeHyperplane v1 v2).2 := by
  have heps : (0 : ℚ) < hpEps := by norm_num [hpEps]
  rcases hdeg with hv | ⟨hx, hy⟩
  · -- exactly vertical edge
    have hx0 : |v1.1 - v2.1| < hpEps := by simp [hv, heps]
    have hcross : 0 < (v1.2 - v2.2) * (p.1 - v1.1) := by
      have : crossProd v1 v2 p = (v1.2 - v2.2) * (p.1 - v1.1) := by
        unfold crossProd; rw [hv]; ring
      linarith [this ▸ hin]
    rcases lt_trichotomy v2.2 v1.2 with h | h | h
    · have hp : v1.1 < p.1 := by nlinarith
      simp only [edgeHyperplane, if_pos hx0, if_pos h, dotRow]
      simpa using hp
    · exfalso; rw [show v1.2 - v2.2 = 0 by linarith] at hcross; simp at hcross
    · have hp : p.1 < v1.1 := by nlinarith
      simp only [edgeHyperplane, if_pos hx0, if_neg (not_lt.mpr h.le), dotRow]
      simpa using hp
  · have hx0 : ¬ |v1.1 - v2.1| < hpEps := not_lt.mpr hx
    have hxne : v1.1 ≠ v2.1 := by
      intro h; rw [h] at hx; simp at hx; linarith
    rcases hy with hyeq | hy
    · -- exactly horizontal edge
      have hy0 : |v1.2 - v2.2| < hpEps := by simp [hyeq, heps]
      have hcross : 0 < (v2.1 - v1.1) * (p.2 - v1.2) := by
        have : crossProd v1 v2 p = (v2.1 - v1.1) * (p.2 - v1.2) := by
          unfold crossProd; rw [hyeq]; ring
        linarith [this ▸ hin]
      rcases hxne.lt_or_lt with h | h
      · have hp : v1.2 < p.2 := by nlinarith
        simp only [edgeHyperplane, if_neg hx0, if_pos hy0, if_pos h, dotRow]
        simpa using hp
      · have hp : p.2 < v1.2 := by nlinarith
        simp only [edgeHyperplane, if_neg hx0, if_pos hy0,
          if_neg (not_lt.mpr h.le), dotRow]
        simpa using hp
    · -- general slanted edge
      have hy0 : ¬ |v1.2 - v2.2| < hpEps := not_lt.mpr hy
      have hd : v1.1 - v2.1 ≠ 0 := sub_ne_zero.mpr hxne
      rcases hxne.lt_or_lt with h | h
      · have hdneg : v1.1 - v2.1 < 0 := by linarith
        simp only [edgeHyperplane, if_neg hx0, if_neg hy0, if_pos h, dotRow]
        have key : -((v1.2 - v2.2) / (v1.1 - v2.1)) * p.1 + 1 * p.2 -
            (v1.1 * v2.2 - v2.1 * v1.2) / (v1.1 - v2.1) =
            crossProd v1 v2 p / (v2.1 - v1.1) := by
          unfold crossProd
          rw [eq_div_iff (by linarith : v2.1 - v1.1 ≠ 0)]
          field_simp
          ring
        have : 0 < crossProd v1 v2 p / (v2.1 - v1.1) :=
          div_pos hin (by linarith)
        linarith [key ▸ this]
      · have hdpos : 0 < v1.1 - v2.1 := by linarith
        simp only [edgeHyperplane, if_neg hx0, if_neg hy0,
          if_neg (not_lt.mpr h.le), dotRow]
        have key : (v1.2 - v2.2) / (v1.1 - v2.1) * p.1 + -1 * p.2 -
            -((v1.1 * v2.2 - v2.1 * v1.2) / (v1.1 - v2.1)) =
            crossProd v1 v2 p / (v1.1 - v2.1) := by
          unfold crossProd
          rw [eq_div_iff hd]
          field_simp
          ring
        have : 0 < crossProd v1 v2 p / (v1.1 - v2.1) := div_pos hin hdpos
        linarith [key ▸ this]

/-- Claim C1 (amended): for a convex piece passed to `GetHyperPlanes` as a
closed vertex loop, every per-edge inequality points inward — any point
strictly inside the piece satisfies `A_j · p > b_j` for every row `j`
belonging to the piece — provided each edge is either exactly
axis-aligned or offset by at least the `1.0e-5` tolerance in both
coordinates.  (Without that proviso the claim fails: see the
counterexample.) -/
theorem getHyperPlanes_rows_point_inward (piece : List Vec2) (p : Vec2)
    (hdeg : ∀ j, j + 1 < piece.length →
      EdgeExact (piece.getD j (0, 0)) (piece.getD (j + 1) (0, 0)))
    (hin : StrictlyInside piece p) :
    ∀ j, j + 1 < piece.length →
      dotRow ((pieceRows piece (piece.length - 1)).getD j default).1 p >
        ((pieceRows piece (piece.length - 1)).getD j default).2 := by
  intro j hj
  have hjn : j < piece.length - 1 := by omega
  rw [pieceRows_getD piece (piece.length - 1) j hjn]
  exact edgeHyperplane_pos _ _ p (hdeg j hj) (hin j hj)

/-- Claim C1, counterexample to the unamended statement: `cexPoint` is
strictly inside the closed loop `cexPiece`, yet the row produced for the
first (nearly-vertical) edge is violated at `cexPoint`, because the
`1.0e-5` tolerance classifies the edge as exactly vertical. -/
theorem getHyperPlanes_row_not_inward_cex :
    StrictlyInside cexPiece cexPoint ∧
      ¬ dotRow ((pieceRows cexPiece (cexPiece.length - 1)).getD 0 default).1
          cexPoint >
        ((pieceRows cexPiece (cexPiece.length - 1)).getD 0 default).2 := by
  constructor
  · intro j hj
    simp only [cexPiece, List.length_cons, List.length_nil] at hj
    have hj3 : j < 3 := by omega
    interval_cases j <;>
      norm_num [cexPiece, cexPoint, crossProd]
  · rw [pieceRows_getD cexPiece (cexPiece.length - 1) 0 (by norm_num [cexPiece])]
    norm_num [cexPiece, cexPoint, edgeHyperplane, hpEps, dotRow, abs_lt]

/-! ### Fuser lemmas -/

/-- Front of an extended segment: growth at the back keeps the front. -/
theorem segFront_append (l t : Seg) (h : l ≠ []) : segFront (l ++ t) = segFront l := by
  cases l with
  | nil => exact absurd rfl h
  | cons a l' => simp [segFront]

/-- Second point of an extended segment: growth at the back keeps it. -/
theorem segSecond_append (l t : Seg) (h : 2 ≤ l.length) :
    segSecond (l ++ t) = segSecond l := by
  match l with
  | a :: b :: l' => simp [segSecond]

/-- Step: far joint, iterator advances (lines 596-599). -/
theorem fuseAux_far (fuel : ℕ) (acc : List Seg) (cur next : Seg) (rest : List Seg)
    (hfar : distSq (segBack cur) (segFront next) > fuseEps ^ 2) :
    fuseAux (fuel + 1) acc cur (next :: rest) = fuseAux fuel (cur :: acc) next rest := by
  simp only [fuseAux]
  rw [if_pos hfar]

/-- Step: coincident joint at a malformed segment, `return false`
(lines 600-603). -/
theorem fuseAux_short (fuel : ℕ) (acc : List Seg) (cur next : Seg) (rest : List Seg)
    (hnear : ¬ distSq (segBack cur) (segFront next) > fuseEps ^ 2)
    (hlen : cur.length < 2 ∨ next.length < 2) :
    fuseAux (fuel + 1) acc cur (next :: rest) = some none := by
  simp only [fuseAux]
  rw [if_neg hnear, if_pos hlen]

/-- Step: convex merge that exhausts the right segment, which is deleted
from the list (lines 607-612). -/
theorem fuseAux_mergeTwo (fuel : ℕ) (acc : List Seg) (cur next : Seg) (rest : List Seg)
    (hnear : ¬ distSq (segBack cur) (segFront next) > fuseEps ^ 2)
    (hlen : ¬ (cur.length < 2 ∨ next.length < 2))
    (hconv : crossProd (segPenult cur) (segBack cur) (segSecond next) < 0)
    (htwo : next.length = 2) :
    fuseAux (fuel + 1) acc cur (next :: rest) =
      fuseAux fuel acc (cur ++ [segSecond next]) rest := by
  simp only [fuseAux]
  rw [if_neg hnear, if_neg hlen, if_pos hconv, if_pos htwo]

/-- Step: convex merge that leaves the right segment nonempty
(lines 607-610). -/
theorem fuseAux_mergeMore (fuel : ℕ) (acc : List Seg) (cur next : Seg) (rest : List Seg)
    (hnear : ¬ distSq (segBack cur) (segFront next) > fuseEps ^ 2)
    (hlen : ¬ (cur.length < 2 ∨ next.length < 2))
    (hconv : crossProd (segPenult cur) (segBack cur) (segSecond next) < 0)
    (hne : next.length ≠ 2) :
    fuseAux (fuel + 1) acc cur (next :: rest) =
      fuseAux fuel acc (cur ++ [segSecond next]) (next.drop 2 :: rest) := by
  simp only [fuseAux]
  rw [if_neg hnear, if_neg hlen, if_pos hconv, if_neg hne]

/-- Step: coincident but non-convex joint, iterator advances
(lines 613-615). -/
theorem fuseAux_noConv (fuel : ℕ) (acc : List Seg) (cur next : Seg) (rest : List Seg)
    (hnear : ¬ distSq (segBack cur) (segFront next) > fuseEps ^ 2)
    (hlen : ¬ (cur.length < 2 ∨ next.length < 2))
    (hge : 0 ≤ crossProd (segPenult cur) (segBack cur) (segSecond next)) :
    fuseAux (fuel + 1) acc cur (next :: rest) = fuseAux fuel (cur :: acc) next rest := by
  simp only [fuseAux]
  rw [if_neg hnear, if_neg hlen, if_neg (not_lt.mpr hge)]

/-- The fuel `fuseLineSegments` supplies is never exhausted: `fuseAux`
returns the loop's result whenever the fuel exceeds the measure. -/
theorem fuseAux_ne_none : ∀ (fuel : ℕ) (acc : List Seg) (cur : Seg) (rest : List Seg),
    fuseMeasure cur rest < fuel → fuseAux fuel acc cur rest ≠ none := by
  intro fuel
  induction fuel with
  | zero => intro acc cur rest h; exact absurd h (by omega)
  | succ f ih =>
    intro acc cur rest h
    match rest with
    | [] => simp [fuseAux]
    | next :: rest' =>
      by_cases hfar : distSq (segBack cur) (segFront next) > fuseEps ^ 2
      · rw [fuseAux_far f acc cur next rest' hfar]
        exact ih _ _ _ (by simp [fuseMeasure] at h ⊢; omega)
      · by_cases hlen : cur.length < 2 ∨ next.length < 2
        · rw [fuseAux_short f acc cur next rest' hfar hlen]; simp
        · by_cases hconv : crossProd (segPenult cur) (segBack cur) (segSecond next) < 0
          · by_cases htwo : next.length = 2
            · rw [fuseAux_mergeTwo f acc cur next rest' hfar hlen hconv htwo]
              refine ih _ _ _ ?_
              simp [fuseMeasure] at h ⊢
              omega
            · rw [fuseAux_mergeMore f acc cur next rest' hfar hlen hconv htwo]
              refine ih _ _ _ ?_
              have h2 : 2 ≤ next.length := by omega
              simp [fuseMeasure] at h ⊢
              omega
          · rw [fuseAux_noConv f acc cur next rest' hfar hlen (not_lt.mp hconv)]
            exact ih _ _ _ (by simp [fuseMeasure] at h ⊢; omega)

/-- Invariant of a successful fuse run: the output is the advanced-past
prefix, then the current segment (grown only at its back), then a tail;
from the current segment on, every adjacent joint of the output is
`NonFusable` — it was inspected by an advance step after its four
decision points froze. -/
theorem fuseAux_chain : ∀ (fuel : ℕ) (acc : List Seg) (cur : Seg) (rest : List Seg)
    (out : List Seg), fuseAux fuel acc cur rest = some (some out) →
    ∃ t suffix, out = acc.reverse ++ (cur ++ t) :: suffix ∧
      List.Chain' NonFusable ((cur ++ t) :: suffix) ∧ (cur = [] → t = []) := by
  intro fuel
  induction fuel with
  | zero => intro acc cur rest out h; exact absurd h (by simp [fuseAux])
  | succ f ih =>
    intro acc cur rest out h
    match rest with
    | [] =>
      refine ⟨[], [], ?_, by simp, fun _ => rfl⟩
      have h2 := h
      simp [fuseAux] at h2
      simp [← h2]
    | next :: rest' =>
      by_cases hfar : distSq (segBack cur) (segFront next) > fuseEps ^ 2
      · rw [fuseAux_far f acc cur next rest' hfar] at h
        obtain ⟨t', s', hout, hchain, hemp⟩ := ih _ _ _ _ h
        refine ⟨[], (next ++ t') :: s', ?_, ?_, fun _ => rfl⟩
        · simpa using hout
        · rw [List.chain'_cons]
          refine ⟨Or.inl ?_, hchain⟩
          by_cases hnil : next = []
          · rw [hnil, hemp hnil]
            simpa [hnil] using hfar
          · rw [segFront_append next t' hnil]
            simpa using hfar
      · by_cases hlen : cur.length < 2 ∨ next.length < 2
        · rw [fuseAux_short f acc cur next rest' hfar hlen] at h
          simp at h
        · by_cases hconv : crossProd (segPenult cur) (segBack cur) (segSecond next) < 0
          · by_cases htwo : next.length = 2
            · rw [fuseAux_mergeTwo f acc cur next rest' hfar hlen hconv htwo] at h
              obtain ⟨t', s', hout, hchain, hemp⟩ := ih _ _ _ _ h
              refine ⟨[segSecond next] ++ t', s', ?_, ?_, ?_⟩
              · rw [hout, List.append_assoc]
              · rw [← List.append_assoc]; exact hchain
              · rintro rfl; simp at hlen
            · rw [fuseAux_mergeMore f acc cur next rest' hfar hlen hconv htwo] at h
              obtain ⟨t', s', hout, hchain, hemp⟩ := ih _ _ _ _ h
              refine ⟨[segSecond next] ++ t', s', ?_, ?_, ?_⟩
              · rw [hout, List.append_assoc]
              · rw [← List.append_assoc]; exact hchain
              · rintro rfl; simp at hlen
          · rw [fuseAux_noConv f acc cur next rest' hfar hlen (not_lt.mp hconv)] at h
            obtain ⟨t', s', hout, hchain, hemp⟩ := ih _ _ _ _ h
            push_neg at hlen
            refine ⟨[], (next ++ t') :: s', by simpa using hout, ?_, fun _ => rfl⟩
            rw [List.chain'_cons]
            refine ⟨Or.inr ⟨by simpa using hlen.1, ?_, ?_⟩, hchain⟩
            · calc (2 : ℕ) ≤ next.length := hlen.2
                _ ≤ (next ++ t').length := by simp
            · rw [segSecond_append next t' hlen.2]
              simpa using not_lt.mp hconv

/-- A list whose adjacent joints are all `NonFusable` passes through the
fuse loop unchanged: every iteration advances the iterator. -/
theorem fuseAux_fused : ∀ (rest : List Seg) (acc : List Seg) (cur : Seg) (fuel : ℕ),
    List.Chain' NonFusable (cur :: rest) → rest.length < fuel →
    fuseAux fuel acc cur rest = some (some (acc.reverse ++ cur :: rest)) := by
  intro rest
  induction rest with
  | nil =>
    intro acc cur fuel _ hfuel
    cases fuel with
    | zero => omega
    | succ f => simp [fuseAux]
  | cons next rest' ih =>
    intro acc cur fuel hchain hfuel
    cases fuel with
    | zero => omega
    | succ f =>
      rw [List.chain'_cons] at hchain
      obtain ⟨hnf, hchain'⟩ := hchain
      have hrec : fuseAux f (cur :: acc) next rest' =
          some (some ((cur :: acc).reverse ++ next :: rest')) :=
        ih (cur :: acc) next f hchain' (by simpa using Nat.lt_of_succ_lt_succ hfuel)
      have hout : (cur :: acc).reverse ++ next :: rest' =
          acc.reverse ++ cur :: next :: rest' := by simp
      by_cases hfar : distSq (segBack cur) (segFront next) > fuseEps ^ 2
      · rw [fuseAux_far f acc cur next rest' hfar, hrec, hout]
      · rcases hnf with hfar' | ⟨ha, hb, hc⟩
        · exact absurd hfar' hfar
        · rw [fuseAux_noConv f acc cur next rest' hfar (by omega) hc, hrec, hout]

/-- Claim C9: the segment fuser is idempotent — whenever
`FuseLineSegments` succeeds, running it again on its own output performs
no merge and returns the list unchanged. -/
theorem fuseLineSegments_idempotent (l m : List Seg)
    (h : fuseLineSegments l = some m) : fuseLineSegments m = some m := by
  match l with
  | [] =>
    simp [fuseLineSegments] at h
    rw [h]
    simp [fuseLineSegments]
  | c :: r =>
    rw [fuseLineSegments] at h
    have hfuel : fuseMeasure c r < fuseFuel (c :: r) := by
      simp only [fuseMeasure, fuseFuel, List.map_cons, List.sum_cons,
        List.length_cons]
      omega
    obtain ⟨x, hx⟩ :=
      Option.ne_none_iff_exists'.mp (fuseAux_ne_none (fuseFuel (c :: r)) [] c r hfuel)
    rw [hx] at h
    simp at h
    rw [h] at hx
    obtain ⟨t, suffix, hout, hchain, -⟩ := fuseAux_chain _ _ _ _ _ hx
    simp at hout
    rw [hout, fuseLineSegments]
    have hlen : suffix.length < fuseFuel ((c ++ t) :: suffix) := by
      simp only [fuseFuel, List.map_cons, List.sum_cons, List.length_cons]
      omega
    rw [fuseAux_fused suffix [] (c ++ t) (fuseFuel ((c ++ t) :: suffix)) hchain hlen]
    simp

/-- Claim C5 (amended), stated on a two-segment list so every outcome of
the walk is observable in the returned value: the fuser merges exactly
when the joint endpoints coincide within `1e-8` (squared comparison) and
the cross product at the joint is negative; a merge appends the right
segment's second point to the left segment and removes the two consumed
points from the right segment, deleting it from the list when it becomes
empty; far or non-convex joints leave both segments unchanged; and a
coincident joint at a segment of fewer than 2 points — not every
encounter with a malformed segment — makes the fuser return `false`. -/
theorem fuseLineSegments_joint_rule (a b : Seg) :
    (distSq (segBack a) (segFront b) > fuseEps ^ 2 →
      fuseLineSegments [a, b] = some [a, b]) ∧
    (¬ distSq (segBack a) (segFront b) > fuseEps ^ 2 →
      ((a.length < 2 ∨ b.length < 2) → fuseLineSegments [a, b] = none) ∧
      (¬ (a.length < 2 ∨ b.length < 2) →
        (crossProd (segPenult a) (segBack a) (segSecond b) < 0 →
          (b.length = 2 → fuseLineSegments [a, b] = some [a ++ [segSecond b]]) ∧
          (b.length ≠ 2 →
            distSq (segSecond b) (segFront (b.drop 2)) > fuseEps ^ 2 →
            fuseLineSegments [a, b] = some [a ++ [segSecond b], b.drop 2])) ∧
        (0 ≤ crossProd (segPenult a) (segBack a) (segSecond b) →
          fuseLineSegments [a, b] = some [a, b]))) := by
  have hfuel : fuseFuel [a, b] = a.length + b.length + 4 + 1 := by
    simp only [fuseFuel, List.map_cons, List.map_nil, List.sum_cons,
      List.sum_nil, List.length_cons, List.length_nil]
    omega
  refine ⟨?_, ?_⟩
  · intro hfar
    rw [fuseLineSegments, hfuel, fuseAux_far _ _ _ _ _ hfar]
    show (fuseAux (a.length + b.length + 3 + 1) [a] b []).getD none = some [a, b]
    simp [fuseAux]
  · intro hnear
    refine ⟨?_, ?_⟩
    · intro hlen
      rw [fuseLineSegments, hfuel, fuseAux_short _ _ _ _ _ hnear hlen]
      rfl
    · intro hlen
      refine ⟨?_, ?_⟩
      · intro hconv
        constructor
        · intro htwo
          rw [fuseLineSegments, hfuel,
            fuseAux_mergeTwo _ _ _ _ _ hnear hlen hconv htwo]
          show (fuseAux (a.length + b.length + 3 + 1) [] (a ++ [segSecond b])
            []).getD none = some [a ++ [segSecond b]]
          simp [fuseAux]
        · intro hne hfar2
          rw [fuseLineSegments, hfuel,
            fuseAux_mergeMore _ _ _ _ _ hnear hlen hconv hne]
          have hback : segBack (a ++ [segSecond b]) = segSecond b := by
            simp [segBack]
          show (fuseAux (a.length + b.length + 3 + 1) [] (a ++ [segSecond b])
            [b.drop 2]).getD none = some [a ++ [segSecond b], b.drop 2]
          rw [fuseAux_far _ _ _ _ _ (by rw [hback]; exact hfar2)]
          show (fuseAux (a.length + b.length + 2 + 1) [a ++ [segSecond b]]
            (b.drop 2) []).getD none = some [a ++ [segSecond b], b.drop 2]
          simp [fuseAux]
      · intro hge
        rw [fuseLineSegments, hfuel, fuseAux_noConv _ _ _ _ _ hnear hlen hge]
        show (fuseAux (a.length + b.length + 3 + 1) [a] b []).getD none = some [a, b]
        simp [fuseAux]

/-- Claim C5, counterexample to the unamended failure condition: a
single-point segment is encountered by the walk, but its endpoint is far
from its successor, so `FuseLineSegments` returns `true` with the list
unchanged instead of failing. -/
theorem fuseLineSegments_single_far_cex :
    fuseLineSegments [[((0 : ℚ), (0 : ℚ))], [(5, 5), (6, 6)]] =
      some [[((0 : ℚ), (0 : ℚ))], [(5, 5), (6, 6)]] := by
  norm_num [fuseLineSegments, fuseFuel, fuseAux, distSq, segBack, segFront,
    fuseEps]

/-- Witness for the amended C5 theorem: a coincident convex joint of two
2-point segments merges into one 3-point segment. -/
theorem fuseLineSegments_joint_rule_witness :
    fuseLineSegments [[((0 : ℚ), (0 : ℚ)), (1, 0)], [(1, 0), (2, -1)]] =
      some [[((0 : ℚ), (0 : ℚ)), (1, 0), (2, -1)]] := by
  have h := (fuseLineSegments_joint_rule [((0 : ℚ), (0 : ℚ)), (1, 0)]
    [(1, 0), (2, -1)]).2
  have h2 := ((h (by norm_num [distSq, segBack, segFront, fuseEps])).2
    (by norm_num)).1
  have h3 := (h2 (by norm_num [crossProd, segPenult, segBack, segSecond])).1
    (by norm_num)
  simpa [segSecond] using h3

/-- Claim C10: `FuseLineSegments` returns `false` only when the walk
reaches two adjacent segments whose joint coincides within `1e-8` and one
of them has fewer than 2 points; a single-point segment whose endpoint is
far from its successor's first point is silently advanced past and, when
the run succeeds, appears unchanged in the output; a single-point segment
that is last is never examined and the function returns `true`. -/
theorem fuseLineSegments_false_only_at_short_joint :
    (∀ c r, fuseLineSegments (c :: r) = none →
      ∃ acc cur next rest, FuseReach ([], c, r) (acc, cur, next :: rest) ∧
        ¬ distSq (segBack cur) (segFront next) > fuseEps ^ 2 ∧
        (cur.length < 2 ∨ next.length < 2)) ∧
    (∀ fuel acc s next rest, s.length = 1 →
      distSq (segBack s) (segFront next) > fuseEps ^ 2 →
      fuseAux (fuel + 1) acc s (next :: rest) = fuseAux fuel (s :: acc) next rest ∧
      ∀ out, fuseAux fuel (s :: acc) next rest = some (some out) →
        ∃ tail, out = acc.reverse ++ s :: tail) ∧
    (∀ fuel acc s, s.length = 1 →
      fuseAux (fuel + 1) acc s [] = some (some (acc.reverse ++ [s]))) := by
  refine ⟨?_, ?_, ?_⟩
  · have key : ∀ (fuel : ℕ) (acc : List Seg) (cur : Seg) (rest : List Seg),
        fuseAux fuel acc cur rest = some none →
        ∃ acc' cur' next' rest', FuseReach (acc, cur, rest) (acc', cur', next' :: rest') ∧
          ¬ distSq (segBack cur') (segFront next') > fuseEps ^ 2 ∧
          (cur'.length < 2 ∨ next'.length < 2) := by
      intro fuel
      induction fuel with
      | zero => intro acc cur rest h; exact absurd h (by simp [fuseAux])
      | succ f ih =>
        intro acc cur rest h
        match rest with
        | [] => simp [fuseAux] at h
        | next :: rest' =>
          by_cases hfar : distSq (segBack cur) (segFront next) > fuseEps ^ 2
          · rw [fuseAux_far f acc cur next rest' hfar] at h
            obtain ⟨a', c', n', r', hr, hprop⟩ := ih _ _ _ h
            exact ⟨a', c', n', r', FuseReach.advance (Or.inl hfar) hr, hprop⟩
          · by_cases hlen : cur.length < 2 ∨ next.length < 2
            · exact ⟨acc, cur, next, rest',
                FuseReach.refl (acc, cur, next :: rest'), hfar, hlen⟩
            · by_cases hconv :
                  crossProd (segPenult cur) (segBack cur) (segSecond next) < 0
              · by_cases htwo : next.length = 2
                · rw [fuseAux_mergeTwo f acc cur next rest' hfar hlen hconv htwo] at h
                  obtain ⟨a', c', n', r', hr, hprop⟩ := ih _ _ _ h
                  exact ⟨a', c', n', r',
                    FuseReach.mergeDrop hfar hlen hconv htwo hr, hprop⟩
                · rw [fuseAux_mergeMore f acc cur next rest' hfar hlen hconv htwo] at h
                  obtain ⟨a', c', n', r', hr, hprop⟩ := ih _ _ _ h
                  exact ⟨a', c', n', r',
                    FuseReach.mergeKeep hfar hlen hconv htwo hr, hprop⟩
              · rw [fuseAux_noConv f acc cur next rest' hfar hlen (not_lt.mp hconv)] at h
                obtain ⟨a', c', n', r', hr, hprop⟩ := ih _ _ _ h
                push_neg at hlen
                exact ⟨a', c', n', r',
                  FuseReach.advance (Or.inr ⟨hlen.1, hlen.2, not_lt.mp hconv⟩) hr, hprop⟩
    intro c r h
    rw [fuseLineSegments] at h
    have hfuel : fuseMeasure c r < fuseFuel (c :: r) := by
      simp only [fuseMeasure, fuseFuel, List.map_cons, List.sum_cons,
        List.length_cons]
      omega
    obtain ⟨x, hx⟩ :=
      Option.ne_none_iff_exists'.mp (fuseAux_ne_none (fuseFuel (c :: r)) [] c r hfuel)
    rw [hx] at h
    simp at h
    rw [h] at hx
    exact key _ _ _ _ hx
  · intro fuel acc s next rest hone hfar
    refine ⟨fuseAux_far fuel acc s next rest hfar, ?_⟩
    intro out hout
    obtain ⟨t, suffix, hrep, -, -⟩ := fuseAux_chain fuel (s :: acc) next rest out hout
    exact ⟨(next ++ t) :: suffix, by simpa using hrep⟩
  · intro fuel acc s _
    simp [fuseAux]

/-- Witness for C10 at a concrete input: the far single-point segment
`[(0,0)]` is advanced past (second conjunct of the theorem, instantiated),
so the next loop state carries it unchanged into the accumulator. -/
theorem fuseLineSegments_false_only_at_short_joint_witness :
    fuseAux 6 [] [((0 : ℚ), (0 : ℚ))] [[(5, 5), (6, 6)]] =
      fuseAux 5 [[((0 : ℚ), (0 : ℚ))]] [(5, 5), (6, 6)] [] :=
  (fuseLineSegments_false_only_at_short_joint.2.1 5 [] [((0 : ℚ), (0 : ℚ))]
    [(5, 5), (6, 6)] [] (by norm_num)
    (by norm_num [distSq, segBack, segFront, fuseEps])).1

/-- Witness for C9 at a concrete input: fusing a merged pair again
returns it unchanged. -/
theorem fuseLineSegments_idempotent_witness :
    fuseLineSegments [[((0 : ℚ), (0 : ℚ)), (1, 0), (2, -1)]] =
      some [[((0 : ℚ), (0 : ℚ)), (1, 0), (2, -1)]] :=
  fuseLineSegments_idempotent [[((0 : ℚ), (0 : ℚ)), (1, 0)], [(1, 0), (2, -1)]]
    [[((0 : ℚ), (0 : ℚ)), (1, 0), (2, -1)]]
    (by norm_num [fuseLineSegments, fuseFuel, fuseAux, distSq, segBack,
      segFront, segSecond, segPenult, crossProd, fuseEps])

/-- Witness for the amended C1 theorem at a concrete input: the axis-aligned
2×2 square loop with interior point `(1,1)`, row 0. -/
theorem getHyperPlanes_rows_point_inward_witness :
    dotRow ((pieceRows [((0:ℚ), (0:ℚ)), (2, 0), (2, 2), (0, 2), (0, 0)]
        ([((0:ℚ), (0:ℚ)), (2, 0), (2, 2), (0, 2), (0, 0)].length - 1)).getD
          0 default).1 (1, 1) >
      ((pieceRows [((0:ℚ), (0:ℚ)), (2, 0), (2, 2), (0, 2), (0, 0)]
        ([((0:ℚ), (0:ℚ)), (2, 0), (2, 2), (0, 2), (0, 0)].length - 1)).getD
          0 default).2 := by
  refine getHyperPlanes_rows_point_inward
    [((0:ℚ), (0:ℚ)), (2, 0), (2, 2), (0, 2), (0, 0)] (1, 1) ?_ ?_ 0 (by norm_num)
  · intro j hj
    simp only [List.length_cons, List.length_nil] at hj
    have hj4 : j < 4 := by omega
    interval_cases j <;> norm_num [EdgeExact, hpEps, le_abs]
  · intro j hj
    simp only [List.length_cons, List.length_nil] at hj
    have hj4 : j < 4 := by omega
    interval_cases j <;> norm_num [crossProd]

/-! ### Stitcher rescaling lemmas -/

/-- Undoing a rotation: rotating by `-θ` then by `θ` is the identity when
`(c, s)` is a genuine cosine/sine pair. -/
theorem selfRotate_selfRotate_neg (c s : ℚ) (hcs : c ^ 2 + s ^ 2 = 1) (x : Vec2) :
    selfRotate c s (selfRotate c (-s) x) = x := by
  unfold selfRotate
  have h1 : c * (c * x.1 - -s * x.2) - s * (-s * x.1 + c * x.2) = x.1 := by
    linear_combination x.1 * hcs
  have h2 : s * (c * x.1 - -s * x.2) + c * (-s * x.1 + c * x.2) = x.2 := by
    linear_combination x.2 * hcs
  rw [h1, h2]

/-- One station of the rescale loop moves the edge point so that its
world-frame offset from the centerline point squares to `scale ^ 2`,
whenever it squared to `w ^ 2` before. -/
theorem rescalePoint_offset (c s : ℚ) (o ctr : Vec2) (w scale : ℚ) (p : Vec2)
    (hcs : c ^ 2 + s ^ 2 = 1) (hw : w ≠ 0)
    (hp : distSq (toWorld c s o p) ctr = w ^ 2) :
    distSq (toWorld c s o (rescalePoint c s o ctr w scale p)) ctr = scale ^ 2 := by
  unfold toWorld at *
  unfold rescalePoint
  rw [selfRotate_selfRotate_neg c s hcs, sub_add_cancel]
  unfold distSq at *
  unfold selfRotate at *
  simp only [Prod.fst_add, Prod.snd_add, Prod.fst_sub, Prod.snd_sub] at *
  field_simp
  linear_combination scale ^ 2 * hp

/-- Index-wise description of the rescale loop. -/
theorem rescaleEdge_getD (c s : ℚ) (o : Vec2) (scale : ℚ) :
    ∀ (ps ctrs : List Vec2) (ws : List ℚ) (i : ℕ),
      i < ps.length → i < ctrs.length → i < ws.length →
      (rescaleEdge c s o scale ps ctrs ws).getD i (0, 0) =
        rescalePoint c s o (ctrs.getD i (0, 0)) (ws.getD i 0) scale
          (ps.getD i (0, 0)) := by
  intro ps
  induction ps with
  | nil => intro ctrs ws i h; simp at h
  | cons p ps' ih =>
    intro ctrs ws i hp hctr hw
    match ctrs, ws with
    | ctr :: ctrs', w :: ws' =>
      match i with
      | 0 => simp [rescaleEdge]
      | i + 1 =>
        simp only [rescaleEdge, List.getD_cons_succ]
        exact ih ctrs' ws' i (by simpa using hp) (by simpa using hctr)
          (by simpa using hw)

/-- Claim C2: projecting the spot's top corners gives `average_l`; when
`average_l < 0` the right edge polyline is rescaled so that, at every
sampled station with nonzero stored road width, its lateral offset from
the centerline equals `|average_l|` (squared offsets compared, staying in
ℚ), and the left edge is unchanged; otherwise — `average_l ≥ 0`,
including exactly 0 — the left edge polyline is rescaled symmetrically by
`average_l` and the right edge is unchanged. -/
theorem getParkingBoundary_rescale (c s : ℚ) (o : Vec2) (avgL : ℚ)
    (rightB leftB ctrs : List Vec2) (rws lws : List ℚ)
    (hcs : c ^ 2 + s ^ 2 = 1) :
    (avgL < 0 →
      (rescaledBoundaries c s o avgL rightB leftB ctrs rws lws).2 = leftB ∧
      ∀ i, i < rightB.length → i < ctrs.length → i < rws.length →
        rws.getD i 0 ≠ 0 →
        distSq (toWorld c s o (rightB.getD i (0, 0))) (ctrs.getD i (0, 0)) =
          (rws.getD i 0) ^ 2 →
        distSq (toWorld c s o
            ((rescaledBoundaries c s o avgL rightB leftB ctrs rws lws).1.getD
              i (0, 0))) (ctrs.getD i (0, 0)) = avgL ^ 2) ∧
    (0 ≤ avgL →
      (rescaledBoundaries c s o avgL rightB leftB ctrs rws lws).1 = rightB ∧
      ∀ i, i < leftB.length → i < ctrs.length → i < lws.length →
        lws.getD i 0 ≠ 0 →
        distSq (toWorld c s o (leftB.getD i (0, 0))) (ctrs.getD i (0, 0)) =
          (lws.getD i 0) ^ 2 →
        distSq (toWorld c s o
            ((rescaledBoundaries c s o avgL rightB leftB ctrs rws lws).2.getD
              i (0, 0))) (ctrs.getD i (0, 0)) = avgL ^ 2) := by
  constructor
  · intro hneg
    rw [show rescaledBoundaries c s o avgL rightB leftB ctrs rws lws =
        (rescaleEdge c s o (-avgL) rightB ctrs rws, leftB) from by
      simp [rescaledBoundaries, hneg]]
    refine ⟨rfl, ?_⟩
    intro i h1 h2 h3 hwne hoff
    rw [rescaleEdge_getD c s o (-avgL) rightB ctrs rws i h1 h2 h3]
    rw [rescalePoint_offset c s o _ _ (-avgL) _ hcs hwne hoff]
    ring
  · intro hpos
    rw [show rescaledBoundaries c s o avgL rightB leftB ctrs rws lws =
        (rightB, rescaleEdge c s o avgL leftB ctrs lws) from by
      simp [rescaledBoundaries, not_lt.mpr hpos]]
    refine ⟨rfl, ?_⟩
    intro i h1 h2 h3 hwne hoff
    rw [rescaleEdge_getD c s o avgL leftB ctrs lws i h1 h2 h3]
    exact rescalePoint_offset c s o _ _ avgL _ hcs hwne hoff

/-! ### Stitcher bracket lemmas -/

/-- A predicate failing somewhere in the list bounds its count strictly. -/
theorem countP_lt_length_of_mem {l : List ℚ} {p : ℚ → Bool} {x : ℚ}
    (hx : x ∈ l) (hpx : p x = false) : l.countP p < l.length := by
  rcases Nat.lt_or_ge (l.countP p) l.length with h | h
  · exact h
  · exfalso
    have heq : l.countP p = l.length :=
      le_antisymm (l.countP_le_length p) h
    rw [List.countP_eq_length] at heq
    rw [heq x hx] at hpx
    simp at hpx

/-- The near bracket index, after the clamp, is always a valid index:
the lower-bound search cannot underflow. -/
theorem clampLower_lowerBoundIdx_lt (l : List ℚ) (x : ℚ) (hne : l ≠ []) :
    clampLower (lowerBoundIdx l x) < l.length := by
  have hlen : 0 < l.length := List.length_pos.mpr hne
  have hle : lowerBoundIdx l x ≤ l.length := List.countP_le_length _
  unfold clampLower
  by_cases h0 : lowerBoundIdx l x = 0
  · rw [if_pos h0, h0]; exact hlen
  · rw [if_neg h0]; omega

/-- The far bracket index is a valid index exactly when some station lies
strictly beyond the projection; the source never checks this. -/
theorem upperBoundIdx_lt (l : List ℚ) (x : ℚ) (h : ∃ m ∈ l, x < m) :
    upperBoundIdx l x < l.length := by
  obtain ⟨m, hm, hxm⟩ := h
  exact countP_lt_length_of_mem hm (by simp [not_le.mpr hxm])

/-- A disassembly loop whose every index is in bounds succeeds. -/
theorem collectSegs_isSome (v : List Vec2) :
    ∀ pairs : List (ℕ × ℕ),
      (∀ q ∈ pairs, q.1 < v.length ∧ q.2 < v.length) →
      (collectSegs v pairs).isSome := by
  intro pairs
  induction pairs with
  | nil => intro _; simp [collectSegs]
  | cons q rest ih =>
    intro h
    obtain ⟨i, j⟩ := q
    obtain ⟨h1, h2⟩ := h (i, j) (by simp)
    obtain ⟨t, ht⟩ := Option.isSome_iff_exists.mp
      (ih fun p hp => h p (List.mem_cons_of_mem _ hp))
    simp [collectSegs, List.getElem?_eq_getElem h1, List.getElem?_eq_getElem h2, ht]

/-- Claim C3 (amended): the near lower-bound bracket is clamped at 0 and
is always a valid index, and the stitchers make only in-bounds accesses —
the right-of-lane branch whenever some station lies strictly beyond
`right_top_s`, the left-of-lane branch whenever some station lies
strictly beyond `left_top_s`.  (The far upper-bound index is used as
returned, not clamped to the last valid index: without those provisos the
access `right_lane_boundary[far]` is out of bounds, see the
counterexample.) -/
theorem stitch_accesses_in_bounds (rightB leftB : List Vec2) (centerS : List ℚ)
    (lt ld rd rt : Vec2) (lts rts : ℚ)
    (hr : rightB.length = centerS.length)
    (hl : leftB.length = centerS.length)
    (hne : centerS ≠ []) :
    clampLower (lowerBoundIdx centerS lts) < centerS.length ∧
    ((∃ m ∈ centerS, rts < m) →
      (stitchRight rightB leftB centerS lt ld rd rt lts rts).isSome) ∧
    ((∃ m ∈ centerS, lts < m) →
      (stitchLeft rightB leftB centerS lt ld rd rt lts rts).isSome) := by
  have hlen : 0 < centerS.length := List.length_pos.mpr hne
  have hrne : 0 < rightB.length := by omega
  have hlne : 0 < leftB.length := by omega
  obtain ⟨front, hfront⟩ : ∃ a, rightB[0]? = some a :=
    ⟨rightB[0], List.getElem?_eq_getElem hrne⟩
  refine ⟨clampLower_lowerBoundIdx_lt centerS lts hne, ?_, ?_⟩
  · intro hfar
    have hnear : clampLower (lowerBoundIdx centerS lts) < rightB.length := by
      have := clampLower_lowerBoundIdx_lt centerS lts hne; omega
    have hfaridx : upperBoundIdx centerS rts < rightB.length := by
      have := upperBoundIdx_lt centerS rts hfar; omega
    have hsegs : (stitchRightSegs rightB leftB
        (clampLower (lowerBoundIdx centerS lts)) (upperBoundIdx centerS rts)
        lt ld rd rt).isSome := by
      obtain ⟨pre, hpre⟩ := Option.isSome_iff_exists.mp
        (collectSegs_isSome rightB (ascPairs 0 (clampLower (lowerBoundIdx centerS lts)))
          (by
            intro q hq
            simp only [ascPairs, List.mem_map, List.mem_range'] at hq
            obtain ⟨i, ⟨hi1, hi2⟩, rfl⟩ := hq
            constructor <;> simp <;> omega))
      obtain ⟨post, hpost⟩ := Option.isSome_iff_exists.mp
        (collectSegs_isSome rightB
          (ascPairs (upperBoundIdx centerS rts) (rightB.length - 1))
          (by
            intro q hq
            simp only [ascPairs, List.mem_map, List.mem_range'] at hq
            obtain ⟨i, ⟨hi1, hi2⟩, rfl⟩ := hq
            constructor <;> simp <;> omega))
      obtain ⟨ls, hls⟩ := Option.isSome_iff_exists.mp
        (collectSegs_isSome leftB (descPairs 0 (leftB.length - 1))
          (by
            intro q hq
            simp only [descPairs, List.mem_reverse, List.mem_map,
              List.mem_range'] at hq
            obtain ⟨i, ⟨hi1, hi2⟩, rfl⟩ := hq
            constructor <;> simp <;> omega))
      simp [stitchRightSegs, hpre, hpost, hls,
        List.getElem?_eq_getElem hnear, List.getElem?_eq_getElem hfaridx,
        Nat.pos_iff_ne_zero.mp hlne]
    obtain ⟨segs, hsegs'⟩ := Option.isSome_iff_exists.mp hsegs
    simp [stitchRight, hfront, hsegs']
  · intro hnearEx
    have hnearidx : upperBoundIdx centerS lts < leftB.length := by
      have := upperBoundIdx_lt centerS lts hnearEx; omega
    have hfaridx : clampLower (lowerBoundIdx centerS rts) < leftB.length := by
      have := clampLower_lowerBoundIdx_lt centerS rts hne; omega
    have hsegs : (stitchLeftSegs rightB leftB
        (upperBoundIdx centerS lts) (clampLower (lowerBoundIdx centerS rts))
        lt ld rd rt).isSome := by
      obtain ⟨pre, hpre⟩ := Option.isSome_iff_exists.mp
        (collectSegs_isSome rightB (ascPairs 0 (rightB.length - 1))
          (by
            intro q hq
            simp only [ascPairs, List.mem_map, List.mem_range'] at hq
            obtain ⟨i, ⟨hi1, hi2⟩, rfl⟩ := hq
            constructor <;> simp <;> omega))
      obtain ⟨ls, hls⟩ := Option.isSome_iff_exists.mp
        (collectSegs_isSome leftB
          (descPairs (upperBoundIdx centerS lts) (leftB.length - 1))
          (by
            intro q hq
            simp only [descPairs, List.mem_reverse, List.mem_map,
              List.mem_range'] at hq
            obtain ⟨i, ⟨hi1, hi2⟩, rfl⟩ := hq
            constructor <;> simp <;> omega))
      obtain ⟨post, hpost⟩ := Option.isSome_iff_exists.mp
        (collectSegs_isSome leftB
          (descPairs 0 (clampLower (lowerBoundIdx centerS rts)))
          (by
            intro q hq
            simp only [descPairs, List.mem_reverse, List.mem_map,
              List.mem_range'] at hq
            obtain ⟨i, ⟨hi1, hi2⟩, rfl⟩ := hq
            constructor <;> simp <;> omega))
      simp [stitchLeftSegs, hpre, hpost, hls,
        List.getElem?_eq_getElem hnearidx, List.getElem?_eq_getElem hfaridx,
        Nat.pos_iff_ne_zero.mp hrne, Nat.pos_iff_ne_zero.mp hlne]
    obtain ⟨segs, hsegs'⟩ := Option.isSome_iff_exists.mp hsegs
    simp [stitchLeft, hfront, hsegs']

/-- Claim C3, counterexample to the unamended statement: with the spot's
far projection at the last station, the upper-bound search returns the
array length (3), the source does not clamp it to the last valid index
(2), and the stitch dereferences `right_lane_boundary[3]` out of
bounds — the run is `none`, not an in-bounds access of index 2. -/
theorem stitch_far_bracket_cex :
    upperBoundIdx [0, 5, 10] (10 : ℚ) = 3 ∧
    ([(0 : ℚ), 5, 10].length = 3) ∧
    stitchRight [((0 : ℚ), (0 : ℚ)), (5, 0), (10, 0)]
      [(0, 3), (5, 3), (10, 3)] [0, 5, 10]
      (4, 1) (4, -2) (6, -2) (6, 1) 4 10 = none := by
  refine ⟨by decide, by decide, ?_⟩
  decide

/-- Witness for the amended C3 theorem at a concrete input. -/
theorem stitch_accesses_in_bounds_witness :
    (stitchRight [((0 : ℚ), (0 : ℚ)), (5, 0), (10, 0)]
      [(0, 3), (5, 3), (10, 3)] [0, 5, 10]
      (4, 1) (4, -2) (6, -2) (6, 1) 4 9).isSome :=
  (stitch_accesses_in_bounds [((0 : ℚ), (0 : ℚ)), (5, 0), (10, 0)]
    [(0, 3), (5, 3), (10, 3)] [0, 5, 10]
    (4, 1) (4, -2) (6, -2) (6, 1) 4 9 (by decide) (by decide)
    (by decide)).2.1 ⟨10, by decide, by decide⟩

/-- Claim C7 (amended): the stitched boundary polyline is closed — its
first and last point coincide — in the left-of-lane branch always, and in
the right-of-lane branch provided the clamped near bracket index is at
least 1 (the copied prefix of the rescaled right edge is nonempty).
Without that proviso the right branch starts the polyline at the spot's
`left_top` corner but still closes it with
`right_lane_boundary.front()`: see the counterexample. -/
theorem stitch_boundary_closed (rightB leftB : List Vec2) (centerS : List ℚ)
    (lt ld rd rt : Vec2) (lts rts : ℚ) :
    (∀ bd segs,
      stitchLeft rightB leftB centerS lt ld rd rt lts rts = some (bd, segs) →
      bd.head? = bd.getLast?) ∧
    (1 ≤ clampLower (lowerBoundIdx centerS lts) →
      ∀ bd segs,
        stitchRight rightB leftB centerS lt ld rd rt lts rts = some (bd, segs) →
        bd.head? = bd.getLast?) := by
  constructor
  · intro bd segs h
    match rightB, h with
    | r0 :: rtl, h =>
      cases hsegs : stitchLeftSegs (r0 :: rtl) leftB
          (upperBoundIdx centerS lts) (clampLower (lowerBoundIdx centerS rts))
          lt ld rd rt with
      | none => rw [stitchLeft] at h; simp [hsegs] at h
      | some segs' =>
        rw [stitchLeft] at h
        simp [hsegs] at h
        obtain ⟨hbd, -⟩ := h
        rw [← hbd]
        rw [List.getLast?_eq_head?_reverse]
        simp
    | [], h => rw [stitchLeft] at h; simp at h
  · intro hone bd segs h
    match rightB, h with
    | r0 :: rtl, h =>
      cases hsegs : stitchRightSegs (r0 :: rtl) leftB
          (clampLower (lowerBoundIdx centerS lts)) (upperBoundIdx centerS rts)
          lt ld rd rt with
      | none => rw [stitchRight] at h; simp [hsegs] at h
      | some segs' =>
        rw [stitchRight] at h
        simp [hsegs] at h
        obtain ⟨hbd, -⟩ := h
        rw [← hbd]
        match hnear : clampLower (lowerBoundIdx centerS lts), hone with
        | n + 1, _ =>
          rw [List.getLast?_eq_head?_reverse]
          simp
    | [], h => rw [stitchRight] at h; simp at h

/-- Claim C7, counterexample to the unamended statement: a successful
right-of-lane stitch whose near bracket clamps to 0 — the boundary starts
at the spot's `left_top` corner `(100, 100)` yet closes with the right
edge's front point `(0, 0)`; its first and last point differ. -/
theorem stitch_boundary_not_closed_cex :
    (stitchRight [((0 : ℚ), (0 : ℚ)), (5, 0), (10, 0)]
        [(0, 3), (5, 3), (10, 3)] [0, 5, 10]
        (100, 100) (100, 97) (103, 97) (103, 100) (-1) 3).map
      (fun r => decide (r.1.head? = r.1.getLast?)) = some false := by
  decide

/-- Witness for the amended C7 theorem at a concrete input with near
bracket index 1. -/
theorem stitch_boundary_closed_witness :
    ([((0 : ℚ), (0 : ℚ)), (1, -1), (1, -3), (4, -3), (4, -1), (5, 0), (5, 3),
        (0, 3), (0, 0)] : List Vec2).head? =
      ([((0 : ℚ), (0 : ℚ)), (1, -1), (1, -3), (4, -3), (4, -1), (5, 0), (5, 3),
        (0, 3), (0, 0)] : List Vec2).getLast? :=
  (stitch_boundary_closed [((0 : ℚ), (0 : ℚ)), (5, 0)] [(0, 3), (5, 3)] [0, 5]
      (1, -1) (1, -3) (4, -3) (4, -1) 7 3).2 (by decide) _
    [[((0 : ℚ), (0 : ℚ)), (5, 0)], [(5, 0), (1, -1)], [(1, -1), (1, -3)],
      [(1, -3), (4, -3)], [(4, -3), (4, -1)], [(4, -1), (5, 0)],
      [(5, 3), (0, 3)]] (by decide)

/-- Witness for C2 at a concrete input: a spot on the right
(`average_l = -2`), one station with road width 3, the right edge point
3 below the centerline; after rescaling its squared offset is `4`. -/
theorem getParkingBoundary_rescale_witness :
    distSq (toWorld 1 0 (0, 0)
        ((rescaledBoundaries 1 0 (0, 0) (-2) [((0 : ℚ), (-3 : ℚ))] [(0, 3)]
          [(0, 0)] [3] [3]).1.getD 0 (0, 0))) ((0 : ℚ), (0 : ℚ)) =
      (-2 : ℚ) ^ 2 :=
  ((getParkingBoundary_rescale 1 0 (0, 0) (-2) [((0 : ℚ), (-3 : ℚ))] [(0, 3)]
      [(0, 0)] [3] [3] (by norm_num)).1 (by norm_num)).2 0 (by norm_num)
    (by norm_num) (by norm_num) (by norm_num)
    (by norm_num [distSq, toWorld, selfRotate])

/-! ### Boundary builder: the recording rule -/

/-- Claim C4 (amended): the sampling loop starts at `start_s`, advances
to `current_index * roi_linesegment_length` clamped to `end_s`, and
records a visited station iff it is `start_s`, is `end_s`, or the
absolute normalized heading change since the previous **visited** station
(recorded or not — both branches overwrite `last_check_point_heading`) is
at least `min_turn_angle`; skipped stations contribute nothing.  The
original claim's rule, with the change measured since the last *recorded*
station, is refuted by the counterexample. -/
theorem buildAux_records_since_last_visited (normA h : ℚ → ℚ)
    (minAngle segLen startS endS : ℚ) :
    ∀ (fuel : ℕ) (lastH idx s : ℚ),
      buildAux normA h minAngle segLen startS endS fuel lastH idx s =
        (visitedAux segLen endS fuel idx s).map
          (selRec normA h minAngle startS endS lastH) := by
  intro fuel
  induction fuel with
  | zero => intro lastH idx s; simp [buildAux, visitedAux]
  | succ f ih =>
    intro lastH idx s
    by_cases hle : s ≤ endS
    · by_cases hskip : |normA (h s - lastH)| < minAngle ∧ s ≠ startS ∧ s ≠ endS
      · have hne : s ≠ endS := hskip.2.2
        rw [show buildAux normA h minAngle segLen startS endS (f + 1) lastH idx s =
            buildAux normA h minAngle segLen startS endS f (h s) (idx + 1)
              (nextS segLen endS (idx + 1)) from by
          simp only [buildAux, if_pos hle, if_pos hskip]]
        rw [ih]
        rw [show visitedAux segLen endS (f + 1) idx s =
            (visitedAux segLen endS f (idx + 1)
              (nextS segLen endS (idx + 1))).map (s :: ·) from by
          simp only [visitedAux, if_pos hle, if_neg hne]]
        rw [Option.map_map]
        congr 1
        funext v
        show selRec normA h minAngle startS endS (h s) v =
          selRec normA h minAngle startS endS lastH (s :: v)
        rw [show selRec normA h minAngle startS endS lastH (s :: v) =
            selRec normA h minAngle startS endS (h s) v from by
          simp only [selRec, if_pos hskip]]
      · by_cases hend : s = endS
        · rw [show buildAux normA h minAngle segLen startS endS (f + 1) lastH idx s =
              some [s] from by
            simp only [buildAux, if_pos hle, if_neg hskip, if_pos hend]]
          rw [show visitedAux segLen endS (f + 1) idx s = some [s] from by
            simp only [visitedAux, if_pos hle, if_pos hend]]
          simp only [Option.map_some']
          rw [show selRec normA h minAngle startS endS lastH [s] = [s] from by
            simp only [selRec, if_neg hskip]]
        · rw [show buildAux normA h minAngle segLen startS endS (f + 1) lastH idx s =
              (buildAux normA h minAngle segLen startS endS f (h s) (idx + 1)
                (nextS segLen endS (idx + 1))).map (s :: ·) from by
            simp only [buildAux, if_pos hle, if_neg hskip, if_neg hend]]
          rw [ih]
          rw [show visitedAux segLen endS (f + 1) idx s =
              (visitedAux segLen endS f (idx + 1)
                (nextS segLen endS (idx + 1))).map (s :: ·) from by
            simp only [visitedAux, if_pos hle, if_neg hend]]
          rw [Option.map_map, Option.map_map]
          congr 1
          funext v
          show s :: selRec normA h minAngle startS endS (h s) v =
            selRec normA h minAngle startS endS lastH (s :: v)
          rw [show selRec normA h minAngle startS endS lastH (s :: v) =
              s :: selRec normA h minAngle startS endS (h s) v from by
            simp only [selRec, if_neg hskip]]
    · rw [show buildAux normA h minAngle segLen startS endS (f + 1) lastH idx s =
          some [] from by simp only [buildAux, if_neg hle]]
      rw [show visitedAux segLen endS (f + 1) idx s = some [] from by
        simp only [visitedAux, if_neg hle]]
      rfl

/-- Claim C4, counterexample to the unamended rule: with
`min_turn_angle = 2` and headings 0, 1, 2, 2, 2 at the visited stations
0, 5, 10, 15, 20 (normalization is the identity there), station 10 turns
by 2 ≥ `min_turn_angle` since the last *recorded* station (station 0,
heading 0), is neither first nor last, and yet is skipped: the loop
compares against the previous *visited* station's heading (1). -/
theorem buildStations_last_recorded_cex :
    buildStations id cexHeading 2 5 0 20 6 = some [0, 20] ∧
    visitedAux 5 20 6 0 0 = some [0, 5, 10, 15, 20] ∧
    |id (cexHeading 10 - cexHeading 0)| ≥ 2 ∧
    (10 : ℚ) ≠ 0 ∧ (10 : ℚ) ≠ 20 ∧ (10 : ℚ) ∉ ([0, 20] : List ℚ) := by
  refine ⟨?_, ?_, by norm_num [cexHeading, le_abs], by norm_num, by norm_num,
    by norm_num⟩
  · norm_num [buildStations, buildAux, nextS, cexHeading, abs_lt]
  · norm_num [visitedAux, nextS]

/-! ### Vertex loading and hyperplane stacking -/

/-- Each piece contributes exactly its recorded edge count in rows. -/
theorem pieceRows_length (piece : List Vec2) (n : ℕ) :
    (pieceRows piece n).length = n := by
  simp [pieceRows]

/-- Stacked row count: with parallel vertex and edge-count lists, the
flattened per-piece row blocks have `sum(edge_count)` rows. -/
theorem rows_length : ∀ (vec : List (List Vec2)) (counts : List ℕ),
    vec.length = counts.length →
    ((vec.zip counts).flatMap fun pc => pieceRows pc.1 pc.2).length =
      counts.sum := by
  intro vec
  induction vec with
  | nil =>
    intro counts hc
    match counts with
    | [] => simp
  | cons p vec' ih =>
    intro counts hc
    match counts with
    | n :: counts' =>
      simp only [List.zip_cons_cons, List.flatMap_cons, List.length_append,
        List.sum_cons]
      rw [pieceRows_length, ih counts' (by simpa using hc)]

/-- Claim C6: after vertex loading succeeds, the recorded edge count of
every piece equals its vertex count minus one (perception pieces, closed
5-vertex loops, are recorded with edge count 4), and the hyperplane step
succeeds with `sum(edge_count)` rows in both `A` and `b`. -/
theorem loadObstacle_edge_counts (c s : ℚ) (boundary : List (List Vec2))
    (obstacles : List ObstacleBox) (enable : Bool) (keep : ObstacleBox → Bool)
    (vec : List (List Vec2)) (counts : List ℕ) (num : ℕ)
    (hload : loadObstacleInVertices c s boundary obstacles enable keep =
      some (vec, counts, num)) :
    counts = vec.map (fun piece => piece.length - 1) ∧
    (enable = true →
      counts.drop boundary.length =
        List.replicate (obstacles.filter keep).length 4) ∧
    ∃ A b, getHyperPlanes num counts vec = some (A, b) ∧
      A.length = counts.sum ∧ b.length = counts.sum := by
  rw [loadObstacleInVertices] at hload
  by_cases hbad : boundary.any fun piece => piece.length ≤ 1
  · rw [if_pos hbad] at hload; simp at hload
  · rw [if_neg hbad] at hload
    have hvertlen : ∀ b : ObstacleBox, (obstacleVertices c s b).length = 5 := by
      intro b; simp [obstacleVertices, toCWClosed]
    have main : ∀ (hvec : vec.length = counts.length) (hnum : num = vec.length),
        ∃ A b, getHyperPlanes num counts vec = some (A, b) ∧
          A.length = counts.sum ∧ b.length = counts.sum := by
      intro hvc hnv
      refine ⟨_, _, by rw [getHyperPlanes, if_neg (by omega)], ?_, ?_⟩ <;>
        simp [rows_length vec counts hvc]
    cases enable with
    | false =>
      simp only [Bool.false_eq_true, if_false, Option.some_inj,
        Prod.mk.injEq] at hload
      obtain ⟨hvec, hcounts, hnum⟩ := hload
      refine ⟨by rw [← hvec, ← hcounts], fun hfalse => absurd hfalse (by simp), ?_⟩
      exact main (by rw [← hvec, ← hcounts]; simp) (by rw [← hvec, ← hnum])
    | true =>
      simp only [if_true, Option.some_inj, Prod.mk.injEq] at hload
      obtain ⟨hvec, hcounts, hnum⟩ := hload
      refine ⟨?_, ?_, ?_⟩
      · rw [← hvec, ← hcounts, List.map_append, List.map_map]
        congr 1
      · intro _
        rw [← hcounts, List.drop_append_of_le_length (by simp)]
        rw [show (boundary.map fun piece => piece.length - 1).drop
            boundary.length = [] from List.drop_eq_nil_of_le (by simp),
          List.nil_append]
        exact List.map_const' _ 4
      · exact main (by rw [← hvec, ← hcounts]; simp) (by rw [← hvec, ← hnum]; simp)

/-- Witness for C6 at a concrete input: two boundary pieces and one kept
obstacle give edge counts `[1, 2, 4]`, each the piece's vertex count
minus one. -/
theorem loadObstacle_edge_counts_witness :
    ([1, 2, 4] : List ℕ) =
      ([[((0 : ℚ), (0 : ℚ)), (1, 0)], [(1, 0), (2, 0), (3, 1)],
        [(1, -1), (-1, -1), (-1, 1), (1, 1), (1, -1)]] :
          List (List Vec2)).map (fun piece => piece.length - 1) :=
  (loadObstacle_edge_counts 1 0
    [[((0 : ℚ), (0 : ℚ)), (1, 0)], [(1, 0), (2, 0), (3, 1)]]
    [⟨(1, 1), (-1, 1), (-1, -1), (1, -1)⟩] true (fun _ => true)
    [[((0 : ℚ), (0 : ℚ)), (1, 0)], [(1, 0), (2, 0), (3, 1)],
      [(1, -1), (-1, -1), (-1, 1), (1, 1), (1, -1)]]
    [1, 2, 4] 3
    (by norm_num [loadObstacleInVertices, obstacleVertices, toCWClosed,
      selfRotate])).1

/-! ### Vehicle-outside-ROI failure -/

/-- Claim C8: when the vehicle position, transformed into the
parking-local frame, leaves the computed ROI box in any coordinate,
`GetParkingBoundary`'s vehicle check returns `false`, and `Process` turns
that into a planning-error status carrying an error message instead of
crashing or producing output. -/
theorem process_fails_outside_roi (pts : List Vec2) (veh o : Vec2) (c s : ℚ)
    (bx : ℚ × ℚ × ℚ × ℚ) (hbx : roiXYBoundary pts = some bx)
    (hout : vehicleOutside bx (selfRotate c (-s) (veh - o)) = true) :
    vehicleCheck pts veh o c s = some false ∧
    processStatus false = Except.error parkingBoundaryFailMsg := by
  constructor
  · rw [vehicleCheck, hbx]
    simp [hout]
  · rfl

/-- Witness for C8 at a concrete input: a vehicle 99 units beyond the ROI
box of a two-point boundary. -/
theorem process_fails_outside_roi_witness :
    vehicleCheck [((0 : ℚ), (0 : ℚ)), (1, 1)] (100, 0) (0, 0) 1 0 =
        some false ∧
      processStatus false = Except.error parkingBoundaryFailMsg :=
  process_fails_outside_roi [((0 : ℚ), (0 : ℚ)), (1, 1)] (100, 0) (0, 0) 1 0
    (0, 1, 0, 1) (by norm_num [roiXYBoundary])
    (by norm_num [vehicleOutside, selfRotate])

end OpenSpaceRoi
